import Mathlib

/-!
Shallow embedding of `src/hanoi.py` (class `HanoiTower`): the multi-peg
Hanoi puzzle state model, its move validation, move application, move
enumeration and goal test, together with proofs of the specified
invariants and contracts.

Modelling conventions:
* Python `int` fields that the claims only ever use as non-negative
  (peg counts, disk counts, peg indices, disk identifiers) are `Nat`.
* A `HanoiTower` value is the quintuple of the Python instance fields
  `pegs`, `disks`, `state`, `parent`, `last_action`; `parent` is a
  back-reference, so the type is a nested inductive.
* Python exceptions (`ValueError` with the three messages the spec names
  `InvalidConfiguration`, `InvalidPegIndex`, `InvalidMove`) become an
  `Except HanoiError` result.
* Python list indexing `xs[i]` (always guarded in the source so that
  `0 ≤ i < len(xs)` on the paths the claims quantify over) is `List.getD`
  with a default; `xs[-1]` (the top of a peg) is `List.getLast?`;
  `xs.pop()` removes the last element (`List.dropLast`) and returns it;
  `xs.append(v)` is `· ++ [v]`.
-/

/-- The error taxonomy of the spec: the three `ValueError` messages the
source can raise ("Invalid configuration" from the field setters,
"Invalid peg index" and "Invalid move" from `move_disk`). -/
inductive HanoiError where
  | invalidConfiguration
  | invalidPegIndex
  | invalidMove
deriving DecidableEq, Repr

/-- The `HanoiTower` instance: fields `pegs`, `disks`, `state` (one list
of disk identifiers per peg, bottom to top), `parent` (back-reference to
the predecessor state) and `last_action` (the producing move). -/
inductive HanoiTower : Type where
  | mk (pegs : Nat) (disks : Nat) (state : List (List Nat))
       (parent : Option HanoiTower) (lastAction : Option (Nat × Nat)) : HanoiTower

def HanoiTower.pegs : HanoiTower → Nat
  | .mk p _ _ _ _ => p

def HanoiTower.disks : HanoiTower → Nat
  | .mk _ d _ _ _ => d

def HanoiTower.state : HanoiTower → List (List Nat)
  | .mk _ _ s _ _ => s

def HanoiTower.parent : HanoiTower → Option HanoiTower
  | .mk _ _ _ pa _ => pa

def HanoiTower.lastAction : HanoiTower → Option (Nat × Nat)
  | .mk _ _ _ _ a => a

@[simp] lemma HanoiTower.pegs_mk (p d : Nat) (s : List (List Nat))
    (pa : Option HanoiTower) (la : Option (Nat × Nat)) :
    (HanoiTower.mk p d s pa la).pegs = p := rfl

@[simp] lemma HanoiTower.disks_mk (p d : Nat) (s : List (List Nat))
    (pa : Option HanoiTower) (la : Option (Nat × Nat)) :
    (HanoiTower.mk p d s pa la).disks = d := rfl

@[simp] lemma HanoiTower.state_mk (p d : Nat) (s : List (List Nat))
    (pa : Option HanoiTower) (la : Option (Nat × Nat)) :
    (HanoiTower.mk p d s pa la).state = s := rfl

@[simp] lemma HanoiTower.parent_mk (p d : Nat) (s : List (List Nat))
    (pa : Option HanoiTower) (la : Option (Nat × Nat)) :
    (HanoiTower.mk p d s pa la).parent = pa := rfl

@[simp] lemma HanoiTower.lastAction_mk (p d : Nat) (s : List (List Nat))
    (pa : Option HanoiTower) (la : Option (Nat × Nat)) :
    (HanoiTower.mk p d s pa la).lastAction = la := rfl

/-- The default arrangement built by the `state` setter when `state is None`:
`[[i for i in range(self.disks, 0, -1)]] + [[] for _ in range(self.pegs - 1)]`,
i.e. peg 0 holds `[disks, disks-1, …, 1]` bottom to top and the other
`pegs - 1` pegs are empty. -/
def initialArrangement (pegs disks : Nat) : List (List Nat) :=
  ((List.range disks).reverse.map (· + 1)) :: List.replicate (pegs - 1) []

/-- Embedding of `HanoiTower.__init__`: runs the validating setters in order.  The
`pegs` setter rejects `pegs < 3`, the `disks` setter rejects `disks < 1`;
the `state` setter only checks that the value is a list of lists of
integers (which the Lean type `List (List Nat)` guarantees) and installs
the default arrangement when no state is supplied; the `parent` and
`last_action` setters only check types. -/
def mkHanoiTower (pegs disks : Nat) (state? : Option (List (List Nat)))
    (parent : Option HanoiTower) (lastAction : Option (Nat × Nat)) :
    Except HanoiError HanoiTower :=
  if pegs < 3 then .error .invalidConfiguration
  else if disks < 1 then .error .invalidConfiguration
  else
    match state? with
    | some st => .ok (.mk pegs disks st parent lastAction)
    | none => .ok (.mk pegs disks (initialArrangement pegs disks) parent lastAction)

/-- The canonical initial state `HanoiTower(pegs, disks)`: all disks on
peg 0 in descending order, no parent, no last action. -/
def initTower (pegs disks : Nat) : HanoiTower :=
  .mk pegs disks (initialArrangement pegs disks) none none

/-- Embedding of `HanoiTower._is_valid_peg`: `0 <= peg_index < self.pegs` (the lower
bound is automatic for `Nat`). -/
def HanoiTower.isValidPeg (t : HanoiTower) (pegIndex : Nat) : Bool :=
  pegIndex < t.pegs

/-- Embedding of `HanoiTower._is_valid_move`: same peg → false; empty source → false;
empty destination → true; otherwise top of source < top of destination. -/
def HanoiTower.isValidMove (t : HanoiTower) (fromPeg toPeg : Nat) : Bool :=
  if fromPeg = toPeg then false
  else if t.state.getD fromPeg [] = [] then false
  else if t.state.getD toPeg [] = [] then true
  else (t.state.getD fromPeg []).getLast?.getD 0 < (t.state.getD toPeg []).getLast?.getD 0

/-- Embedding of `HanoiTower.move_disk`: raises "Invalid peg index" unless both
indices pass `_is_valid_peg`, then "Invalid move" unless `_is_valid_move`
holds; otherwise deep-copies the arrangement, pops the top of `from_peg`,
appends it to `to_peg`, and returns a fresh instance with `parent = self`
and `last_action = (from_peg, to_peg)`. -/
def HanoiTower.moveDisk (t : HanoiTower) (fromPeg toPeg : Nat) :
    Except HanoiError HanoiTower :=
  if ¬ (t.isValidPeg fromPeg ∧ t.isValidPeg toPeg) then .error .invalidPegIndex
  else if ¬ t.isValidMove fromPeg toPeg then .error .invalidMove
  else
    let top := (t.state.getD fromPeg []).getLast?.getD 0
    let s1 := t.state.set fromPeg ((t.state.getD fromPeg []).dropLast)
    let s2 := s1.set toPeg ((s1.getD toPeg []) ++ [top])
    .ok (.mk t.pegs t.disks s2 (some t) (some (fromPeg, toPeg)))

/-- Embedding of `HanoiTower.get_possible_moves`: for `from_peg` in `range(pegs)` and
`to_peg` in `range(pegs)`, collect `(from_peg, to_peg)` whenever
`_is_valid_move` holds. -/
def HanoiTower.getPossibleMoves (t : HanoiTower) : List (Nat × Nat) :=
  (List.range t.pegs).flatMap (fun fromPeg =>
    (List.range t.pegs).filterMap (fun toPeg =>
      if t.isValidMove fromPeg toPeg then some (fromPeg, toPeg) else none))

/-- Embedding of `HanoiTower.is_goal_state`: `len(self.state[-1]) == self.disks`. -/
def HanoiTower.isGoalState (t : HanoiTower) : Bool :=
  (t.state.getLast?.getD []).length = t.disks

/-- States reachable from `t0` by finitely many successful `move_disk`
calls. -/
inductive ReachableFrom (t0 : HanoiTower) : HanoiTower → Prop where
  | refl : ReachableFrom t0 t0
  | step {t t' : HanoiTower} {f g : Nat} :
      ReachableFrom t0 t → t.moveDisk f g = .ok t' → ReachableFrom t0 t'

/-- Every peg of the arrangement is strictly decreasing from bottom to top. -/
def SortedPegs (st : List (List Nat)) : Prop :=
  ∀ l ∈ st, l.Pairwise (· > ·)

/-! ### Helper lemmas about lists and multisets -/

lemma getD_set_ne {α : Type} (l : List α) (i j : Nat) (v d : α) (h : i ≠ j) :
    (l.set i v).getD j d = l.getD j d := by
  simp [List.getD, List.getElem?_set_ne h]

lemma getD_set_self {α : Type} (l : List α) (i : Nat) (v d : α) (h : i < l.length) :
    (l.set i v).getD i d = v := by
  simp [List.getD, List.getElem?_set_self, h]

lemma lt_length_of_getD_ne_nil {α : Type} (l : List (List α)) (i : Nat)
    (h : l.getD i [] ≠ []) : i < l.length := by
  by_contra hlt
  exact h (List.getD_eq_default _ _ (Nat.le_of_not_lt hlt))

lemma getD_mem {α : Type} (l : List α) (i : Nat) (d : α) (h : i < l.length) :
    l.getD i d ∈ l := by
  induction l generalizing i with
  | nil => simp at h
  | cons a t ih =>
    cases i with
    | zero => simp
    | succ i =>
      rw [List.getD_cons_succ]
      exact List.mem_cons_of_mem a (ih i (by simpa using h))

lemma set_getD_self {α : Type} (l : List α) (i : Nat) (d : α) (h : i < l.length) :
    l.set i (l.getD i d) = l := by
  induction l generalizing i with
  | nil => simp at h
  | cons a t ih =>
    cases i with
    | zero => simp [List.getD]
    | succ i => simp only [List.set, List.getD_cons_succ]; rw [ih i (by simpa using h)]

lemma flatten_set_perm (st : List (List Nat)) (i : Nat) (l : List Nat)
    (h : i < st.length) :
    ((st.set i l).flatten ++ st.getD i []).Perm (st.flatten ++ l) := by
  induction st generalizing i with
  | nil => simp at h
  | cons a t ih =>
    cases i with
    | zero =>
      simp only [List.set, List.getD_cons_zero, List.flatten_cons]
      rw [List.append_assoc a]
      exact List.perm_append_comm.trans (List.Perm.append_left a List.perm_append_comm)
    | succ i =>
      simp only [List.set, List.getD_cons_succ, List.flatten_cons]
      rw [List.append_assoc, List.append_assoc]
      exact List.Perm.append_left a (ih i (by simpa using h))

lemma sorted_dropLast (l : List Nat) (h : l.Pairwise (· > ·)) :
    l.dropLast.Pairwise (· > ·) :=
  h.sublist (List.dropLast_sublist l)

lemma getLast_le_of_sorted (l : List Nat) (h : l.Pairwise (· > ·)) (hne : l ≠ [])
    (y : Nat) (hy : y ∈ l) : l.getLast hne ≤ y := by
  induction l with
  | nil => simp at hy
  | cons a t ih =>
    rcases List.pairwise_cons.1 h with ⟨ha, ht⟩
    cases t with
    | nil => simp at hy; simp [hy, List.getLast]
    | cons b t' =>
      rw [List.getLast_cons (List.cons_ne_nil b t')]
      rcases List.mem_cons.1 hy with hya | hyt
      · subst hya
        exact Nat.le_of_lt (ha _ (List.getLast_mem (List.cons_ne_nil b t')))
      · exact ih ht (List.cons_ne_nil b t') hyt

lemma sorted_append_last (l : List Nat) (x : Nat) (h : l.Pairwise (· > ·))
    (hx : ∀ y ∈ l, x < y) : (l ++ [x]).Pairwise (· > ·) := by
  rw [List.pairwise_append]
  refine ⟨h, List.pairwise_singleton _ _, fun a ha b hb => ?_⟩
  rcases List.mem_singleton.1 hb with rfl
  exact hx a ha

/-! ### Inversion lemmas for `isValidMove` and `moveDisk` -/

lemma isValidMove_elim {t : HanoiTower} {f g : Nat}
    (h : t.isValidMove f g = true) :
    f ≠ g ∧ t.state.getD f [] ≠ [] ∧
      (t.state.getD g [] = [] ∨
        (t.state.getD f []).getLast?.getD 0 < (t.state.getD g []).getLast?.getD 0) := by
  unfold HanoiTower.isValidMove at h
  split_ifs at h with h1 h2 h3
  · exact ⟨h1, h2, Or.inl h3⟩
  · exact ⟨h1, h2, Or.inr (by simpa using h)⟩

lemma isValidMove_intro {t : HanoiTower} {f g : Nat}
    (h1 : f ≠ g) (h2 : t.state.getD f [] ≠ [])
    (h3 : t.state.getD g [] = [] ∨
      (t.state.getD f []).getLast?.getD 0 < (t.state.getD g []).getLast?.getD 0) :
    t.isValidMove f g = true := by
  unfold HanoiTower.isValidMove
  rcases h3 with h3 | h3 <;> split_ifs <;> simp_all

/-- The arrangement produced by a successful `move_disk` call: the top of
`f` is popped and appended to `g`. -/
def movedArrangement (st : List (List Nat)) (f g : Nat) : List (List Nat) :=
  (st.set f ((st.getD f []).dropLast)).set g
    (((st.set f ((st.getD f []).dropLast)).getD g []) ++ [(st.getD f []).getLast?.getD 0])

lemma movedArrangement_eq (st : List (List Nat)) (f g : Nat) (hfg : f ≠ g) :
    movedArrangement st f g =
      (st.set f (st.getD f []).dropLast).set g
        (st.getD g [] ++ [(st.getD f []).getLast?.getD 0]) := by
  unfold movedArrangement
  rw [getD_set_ne _ _ _ _ _ hfg]

lemma moveDisk_ok_elim {t t' : HanoiTower} {f g : Nat}
    (h : t.moveDisk f g = .ok t') :
    f < t.pegs ∧ g < t.pegs ∧ t.isValidMove f g = true ∧
      t' = .mk t.pegs t.disks (movedArrangement t.state f g) (some t) (some (f, g)) := by
  unfold HanoiTower.moveDisk at h
  split_ifs at h with h1 h2
  simp only [HanoiTower.isValidPeg, decide_eq_true_eq] at h1
  simp only [Except.ok.injEq] at h
  exact ⟨h1.1, h1.2, h2, h.symm⟩

lemma moveDisk_ok_intro {t : HanoiTower} {f g : Nat}
    (hf : f < t.pegs) (hg : g < t.pegs) (hv : t.isValidMove f g = true) :
    t.moveDisk f g = .ok (.mk t.pegs t.disks (movedArrangement t.state f g)
      (some t) (some (f, g))) := by
  unfold HanoiTower.moveDisk
  rw [if_neg, if_neg]
  · rfl
  · simp [hv]
  · simp [HanoiTower.isValidPeg, hf, hg]

/-- A successful move preserves the configuration fields, the arrangement
length, per-peg sortedness and the multiset of disks, and records its
provenance. -/
lemma moveDisk_ok_inv {t t' : HanoiTower} {f g : Nat}
    (h : t.moveDisk f g = .ok t') (hlen : t.state.length = t.pegs) :
    t'.pegs = t.pegs ∧ t'.disks = t.disks ∧ t'.state.length = t.state.length ∧
      (SortedPegs t.state → SortedPegs t'.state) ∧
      (t'.state.flatten : Multiset Nat) = (t.state.flatten : Multiset Nat) := by
  obtain ⟨hf, hg, hv, rfl⟩ := moveDisk_ok_elim h
  obtain ⟨hfg, hfne, hcond⟩ := isValidMove_elim hv
  set lf := t.state.getD f [] with hlf
  set lg := t.state.getD g [] with hlg
  have hflen : f < t.state.length := lt_length_of_getD_ne_nil _ _ hfne
  have hglen : g < t.state.length := hlen ▸ hg
  set x := lf.getLast?.getD 0 with hx
  have hxlast : x = lf.getLast hfne := by
    rw [hx, List.getLast?_eq_getLast lf hfne]; rfl
  have hlf_split : lf.dropLast ++ [x] = lf := by
    rw [hxlast]; exact List.dropLast_append_getLast hfne
  have hs1g : (t.state.set f lf.dropLast).getD g [] = lg := getD_set_ne _ _ _ _ _ hfg
  have harr : movedArrangement t.state f g =
      (t.state.set f lf.dropLast).set g (lg ++ [x]) := by
    unfold movedArrangement
    rw [← hlf, hs1g]
  refine ⟨by simp, by simp, ?_, ?_, ?_⟩
  · simp [movedArrangement]
  · intro hsorted
    intro l hl
    rw [HanoiTower.state_mk, harr] at hl
    rcases List.mem_or_eq_of_mem_set hl with hl1 | rfl
    · rcases List.mem_or_eq_of_mem_set hl1 with hl2 | rfl
      · exact hsorted l hl2
      · exact sorted_dropLast lf (hsorted lf (getD_mem _ _ _ hflen))
    · rcases hcond with hge | hlt
      · rw [hge]
        simp
      · have hgne : lg ≠ [] := by
          intro hnil; rw [hnil] at hlt; simp at hlt
        have hsg : lg.Pairwise (· > ·) :=
          hsorted lg (hlg ▸ getD_mem _ _ _ hglen)
        refine sorted_append_last lg x hsg (fun y hy => ?_)
        have hle := getLast_le_of_sorted lg hsg hgne y hy
        have hlast : lg.getLast?.getD 0 = lg.getLast hgne := by
          rw [List.getLast?_eq_getLast lg hgne]; rfl
        rw [hlast] at hlt
        exact Nat.lt_of_lt_of_le hlt hle
  · rw [HanoiTower.state_mk, harr]
    have hp1 : (((t.state.set f lf.dropLast).set g (lg ++ [x])).flatten ++ lg).Perm
        ((t.state.set f lf.dropLast).flatten ++ (lg ++ [x])) := by
      have hperm := flatten_set_perm (t.state.set f lf.dropLast) g (lg ++ [x])
        (by simpa using hglen)
      rwa [hs1g] at hperm
    have hp2 : ((t.state.set f lf.dropLast).flatten ++ lf).Perm
        (t.state.flatten ++ lf.dropLast) :=
      flatten_set_perm t.state f lf.dropLast hflen
    have hm1 := Multiset.coe_eq_coe.2 hp1
    have hm2 := Multiset.coe_eq_coe.2 hp2
    simp only [← Multiset.coe_add] at hm1 hm2
    have hsplit : (lf.dropLast : Multiset Nat) + ↑[x] = (lf : Multiset Nat) := by
      rw [Multiset.coe_add, hlf_split]
    have key : (((t.state.set f lf.dropLast).set g (lg ++ [x])).flatten : Multiset Nat)
        + (↑lg + ↑lf) = (t.state.flatten : Multiset Nat) + (↑lg + ↑lf) := by
      have e1 : (((t.state.set f lf.dropLast).set g (lg ++ [x])).flatten : Multiset Nat)
          + (↑lg + ↑lf)
          = ((((t.state.set f lf.dropLast).set g (lg ++ [x])).flatten : Multiset Nat)
            + ↑lg) + ↑lf := by ac_rfl
      rw [e1, hm1]
      have e2 : (((t.state.set f lf.dropLast).flatten : Multiset Nat) + (↑lg + ↑[x])) + ↑lf
          = (((t.state.set f lf.dropLast).flatten : Multiset Nat) + ↑lf) + (↑lg + ↑[x]) := by
        ac_rfl
      rw [e2, hm2]
      have e3 : ((t.state.flatten : Multiset Nat) + ↑lf.dropLast) + (↑lg + ↑[x])
          = (t.state.flatten : Multiset Nat) + (↑lg + (↑lf.dropLast + ↑[x])) := by ac_rfl
      rw [e3, hsplit]
    exact add_right_cancel key

/-! ### The reachability invariant -/

lemma flatten_replicate_nil (n : Nat) :
    (List.replicate n ([] : List Nat)).flatten = [] := by
  induction n with
  | zero => rfl
  | succ n ih => simp [List.replicate, ih]

lemma initialArrangement_length (pegs disks : Nat) (hp : 1 ≤ pegs) :
    (initialArrangement pegs disks).length = pegs := by
  simp [initialArrangement]
  omega

lemma initialArrangement_sorted (pegs disks : Nat) :
    SortedPegs (initialArrangement pegs disks) := by
  intro l hl
  unfold initialArrangement at hl
  rcases List.mem_cons.1 hl with rfl | hl
  · rw [List.map_reverse, List.pairwise_reverse]
    refine List.Pairwise.map _ (fun a b hab => ?_) (List.pairwise_lt_range disks)
    · simpa using hab
  · rw [List.eq_of_mem_replicate hl]
    exact List.Pairwise.nil

lemma initialArrangement_flatten (pegs disks : Nat) :
    ((initialArrangement pegs disks).flatten : Multiset Nat) =
      ↑((List.range disks).map (· + 1)) := by
  unfold initialArrangement
  rw [List.flatten_cons, flatten_replicate_nil, List.append_nil]
  exact Multiset.coe_eq_coe.2 (List.Perm.map _ (List.reverse_perm (List.range disks)))

/-- Every state reachable from the canonical initial state keeps the
configuration fields, has one peg list per peg, keeps every peg strictly
decreasing, and conserves the multiset of disks `{1, …, disks}`. -/
lemma reachable_inv (pegs disks : Nat) (t : HanoiTower) (hp : 3 ≤ pegs)
    (h : ReachableFrom (initTower pegs disks) t) :
    t.pegs = pegs ∧ t.disks = disks ∧ t.state.length = pegs ∧
      SortedPegs t.state ∧
      (t.state.flatten : Multiset Nat) = ↑((List.range disks).map (· + 1)) := by
  induction h with
  | refl =>
    refine ⟨rfl, rfl, ?_, ?_, ?_⟩
    · exact initialArrangement_length pegs disks (by omega)
    · exact initialArrangement_sorted pegs disks
    · exact initialArrangement_flatten pegs disks
  | step hr hm ih =>
    obtain ⟨hpegs, hdisks, hlen, hsorted, hmult⟩ := ih
    obtain ⟨hpegs', hdisks', hlen', hsorted', hmult'⟩ :=
      moveDisk_ok_inv hm (by rw [hlen, hpegs])
    exact ⟨hpegs' ▸ hpegs, hdisks' ▸ hdisks, hlen' ▸ hlen,
      hsorted' hsorted, hmult' ▸ hmult⟩

/-! ### The claims -/

/-- Claim C1: for every state reachable from the canonical initial state
(all disks on peg 0 in descending order) by any sequence of successful
`move_disk` calls, every peg's sequence of disk identifiers is strictly
decreasing from bottom to top. -/
theorem claim_C1_ordering_invariant (pegs disks : Nat) (t : HanoiTower)
    (hp : 3 ≤ pegs) (h : ReachableFrom (initTower pegs disks) t) :
    SortedPegs t.state :=
  (reachable_inv pegs disks t hp h).2.2.2.1

/-- Claim C2: for every state reachable from the canonical initial state
by any sequence of successful `move_disk` calls, the multiset of disk
identifiers across all pegs equals `{1, …, disks}`, each identifier
appearing exactly once. -/
theorem claim_C2_disk_conservation (pegs disks : Nat) (t : HanoiTower)
    (hp : 3 ≤ pegs) (h : ReachableFrom (initTower pegs disks) t) :
    (t.state.flatten : Multiset Nat) = ↑((List.range disks).map (· + 1)) :=
  (reachable_inv pegs disks t hp h).2.2.2.2

theorem claim_C1_witness :
    SortedPegs (HanoiTower.mk 3 3 [[3, 2], [1], []]
      (some (initTower 3 3)) (some (0, 1))).state :=
  claim_C1_ordering_invariant 3 3 _ (by decide)
    (ReachableFrom.step ReachableFrom.refl
      (show (initTower 3 3).moveDisk 0 1 = Except.ok
        (HanoiTower.mk 3 3 [[3, 2], [1], []]
          (some (initTower 3 3)) (some (0, 1))) from rfl))

theorem claim_C2_witness :
    ((HanoiTower.mk 3 3 [[3, 2], [], [1]]
        (some (initTower 3 3)) (some (0, 2))).state.flatten : Multiset Nat) =
      ↑((List.range 3).map (· + 1)) :=
  claim_C2_disk_conservation 3 3 _ (by decide)
    (ReachableFrom.step ReachableFrom.refl
      (show (initTower 3 3).moveDisk 0 2 = Except.ok
        (HanoiTower.mk 3 3 [[3, 2], [], [1]]
          (some (initTower 3 3)) (some (0, 2))) from rfl))

/-- Claim C3: for every state (with one peg list per peg) and every pair
of in-range peg indices, `_is_valid_move` returns false on a same-peg
move; otherwise false when the source peg is empty; otherwise true when
the destination peg is empty; otherwise true iff the top disk of the
source is strictly smaller than the top disk of the destination. -/
theorem claim_C3_is_valid_move_contract (t : HanoiTower) (f g : Nat)
    (hf : f < t.pegs) (hg : g < t.pegs) (hlen : t.state.length = t.pegs) :
    (f = g → t.isValidMove f g = false)
  ∧ (f ≠ g → t.state.getD f [] = [] → t.isValidMove f g = false)
  ∧ (f ≠ g → t.state.getD f [] ≠ [] → t.state.getD g [] = [] →
      t.isValidMove f g = true)
  ∧ (f ≠ g → t.state.getD f [] ≠ [] → t.state.getD g [] ≠ [] →
      (t.isValidMove f g = true ↔
        (t.state.getD f []).getLast?.getD 0 < (t.state.getD g []).getLast?.getD 0)) := by
  refine ⟨fun h1 => ?_, fun h1 h2 => ?_, fun h1 h2 h3 => ?_, fun h1 h2 h3 => ?_⟩ <;>
    unfold HanoiTower.isValidMove <;> split_ifs <;> simp_all

theorem claim_C3_witness :
    (0 = 0 →
      (HanoiTower.mk 3 3 [[3, 2], [1], []] none none).isValidMove 0 0 = false)
  ∧ (0 ≠ 0 →
      (HanoiTower.mk 3 3 [[3, 2], [1], []] none none).state.getD 0 [] = [] →
      (HanoiTower.mk 3 3 [[3, 2], [1], []] none none).isValidMove 0 0 = false)
  ∧ (0 ≠ 0 →
      (HanoiTower.mk 3 3 [[3, 2], [1], []] none none).state.getD 0 [] ≠ [] →
      (HanoiTower.mk 3 3 [[3, 2], [1], []] none none).state.getD 0 [] = [] →
      (HanoiTower.mk 3 3 [[3, 2], [1], []] none none).isValidMove 0 0 = true)
  ∧ (0 ≠ 0 →
      (HanoiTower.mk 3 3 [[3, 2], [1], []] none none).state.getD 0 [] ≠ [] →
      (HanoiTower.mk 3 3 [[3, 2], [1], []] none none).state.getD 0 [] ≠ [] →
      ((HanoiTower.mk 3 3 [[3, 2], [1], []] none none).isValidMove 0 0 = true ↔
        ((HanoiTower.mk 3 3 [[3, 2], [1], []] none none).state.getD 0 []).getLast?.getD 0 <
          ((HanoiTower.mk 3 3 [[3, 2], [1], []] none none).state.getD 0 []).getLast?.getD 0)) :=
  claim_C3_is_valid_move_contract (HanoiTower.mk 3 3 [[3, 2], [1], []] none none)
    0 0 (by decide) (by decide) (by decide)

/-- Claim C4: a successful `move_disk` returns a state whose arrangement
is the old arrangement with the top disk of the source peg removed and
pushed onto the destination peg, whose parent is the old state and whose
producing move is the requested pair, with the configuration fields kept
(and, the embedding being purely functional, the old state untouched). -/
theorem claim_C4_move_effect (t t' : HanoiTower) (f g : Nat)
    (h : t.moveDisk f g = .ok t') :
    ∃ x rest, t.state.getD f [] = rest ++ [x]
      ∧ t'.state = (t.state.set f rest).set g ((t.state.getD g []) ++ [x])
      ∧ t'.parent = some t ∧ t'.lastAction = some (f, g)
      ∧ t'.pegs = t.pegs ∧ t'.disks = t.disks := by
  obtain ⟨hf, hg, hv, rfl⟩ := moveDisk_ok_elim h
  obtain ⟨hfg, hfne, hcond⟩ := isValidMove_elim hv
  refine ⟨(t.state.getD f []).getLast hfne, (t.state.getD f []).dropLast,
    (List.dropLast_append_getLast hfne).symm, ?_, by simp, by simp, by simp, by simp⟩
  rw [HanoiTower.state_mk]
  unfold movedArrangement
  rw [getD_set_ne _ _ _ _ _ hfg]
  rw [List.getLast?_eq_getLast _ hfne]
  rfl

theorem claim_C4_witness :
    ∃ x rest, (initTower 3 3).state.getD 0 [] = rest ++ [x]
      ∧ (HanoiTower.mk 3 3 [[3, 2], [], [1]]
          (some (initTower 3 3)) (some (0, 2))).state =
        (((initTower 3 3).state.set 0 rest).set 2
          (((initTower 3 3).state.getD 2 []) ++ [x]))
      ∧ (HanoiTower.mk 3 3 [[3, 2], [], [1]]
          (some (initTower 3 3)) (some (0, 2))).parent = some (initTower 3 3)
      ∧ (HanoiTower.mk 3 3 [[3, 2], [], [1]]
          (some (initTower 3 3)) (some (0, 2))).lastAction = some (0, 2)
      ∧ (HanoiTower.mk 3 3 [[3, 2], [], [1]]
          (some (initTower 3 3)) (some (0, 2))).pegs = (initTower 3 3).pegs
      ∧ (HanoiTower.mk 3 3 [[3, 2], [], [1]]
          (some (initTower 3 3)) (some (0, 2))).disks = (initTower 3 3).disks :=
  claim_C4_move_effect (initTower 3 3) _ 0 2 rfl

/-- Claim C5: `move_disk` fails with `InvalidPegIndex` iff an index is
out of range; with both indices in range it fails with `InvalidMove` iff
`_is_valid_move` rejects the pair; otherwise it succeeds. -/
theorem claim_C5_move_errors (t : HanoiTower) (f g : Nat)
    (hlen : t.state.length = t.pegs) :
    (t.moveDisk f g = .error .invalidPegIndex ↔ (t.pegs ≤ f ∨ t.pegs ≤ g))
  ∧ (f < t.pegs → g < t.pegs →
      (t.moveDisk f g = .error .invalidMove ↔ t.isValidMove f g = false))
  ∧ (f < t.pegs → g < t.pegs → t.isValidMove f g = true →
      ∃ t', t.moveDisk f g = .ok t') := by
  unfold HanoiTower.moveDisk
  by_cases hfp : f < t.pegs <;> by_cases hgp : g < t.pegs <;>
    simp only [HanoiTower.isValidPeg, decide_eq_true_eq]
  · by_cases hv : t.isValidMove f g = true <;> simp [hfp, hgp, hv]
  · simp [hfp, hgp]
    omega
  · simp [hfp, hgp]
    omega
  · simp [hfp, hgp]
    omega

theorem claim_C5_witness :
    ((initTower 3 3).moveDisk 0 5 = .error .invalidPegIndex ↔ (3 ≤ 0 ∨ 3 ≤ 5))
  ∧ (0 < 3 → 5 < 3 →
      ((initTower 3 3).moveDisk 0 5 = .error .invalidMove ↔
        (initTower 3 3).isValidMove 0 5 = false))
  ∧ (0 < 3 → 5 < 3 → (initTower 3 3).isValidMove 0 5 = true →
      ∃ t', (initTower 3 3).moveDisk 0 5 = .ok t') :=
  claim_C5_move_errors (initTower 3 3) 0 5 rfl

/-- Claim C8: `is_goal_state` is true iff the number of disks on the last
peg (index `pegs - 1`) equals `disks`, regardless of the other pegs. -/
theorem claim_C8_goal_state (t : HanoiTower)
    (hlen : t.state.length = t.pegs) (hp : 0 < t.pegs) :
    (t.isGoalState = true ↔ (t.state.getD (t.pegs - 1) []).length = t.disks) := by
  have hne : t.state ≠ [] := by
    intro h0
    rw [h0] at hlen
    simp at hlen
    omega
  unfold HanoiTower.isGoalState
  rw [List.getLast?_eq_getLast _ hne, Option.getD_some, List.getLast_eq_getElem,
    show t.pegs - 1 = t.state.length - 1 from by omega,
    List.getD_eq_getElem _ _ (show t.state.length - 1 < t.state.length by omega)]
  simp

theorem claim_C8_witness :
    ((HanoiTower.mk 3 1 [[], [2], [1]] none none).isGoalState = true ↔
      ((HanoiTower.mk 3 1 [[], [2], [1]] none none).state.getD (3 - 1) []).length = 1) :=
  claim_C8_goal_state (HanoiTower.mk 3 1 [[], [2], [1]] none none) rfl (by decide)

/-- Claim C9: applying move `(a, b)` and then move `(b, a)`, both
succeeding, returns to the original arrangement. -/
theorem claim_C9_move_reversibility (t t1 t2 : HanoiTower) (a b : Nat)
    (h1 : t.moveDisk a b = .ok t1) (h2 : t1.moveDisk b a = .ok t2) :
    t2.state = t.state := by
  obtain ⟨ha, hb, hv1, rfl⟩ := moveDisk_ok_elim h1
  obtain ⟨hb2, ha2, hv2, rfl⟩ := moveDisk_ok_elim h2
  obtain ⟨hab, hane, hcond⟩ := isValidMove_elim hv1
  simp only [HanoiTower.state_mk]
  set st := t.state with hst
  set la := st.getD a [] with hla
  set lb := st.getD b [] with hlb
  have halen : a < st.length := lt_length_of_getD_ne_nil _ _ hane
  set x := la.getLast?.getD 0 with hx
  have hla_split : la.dropLast ++ [x] = la := by
    rw [hx, List.getLast?_eq_getLast la hane, Option.getD_some]
    exact List.dropLast_append_getLast hane
  have harr1 : movedArrangement st a b = (st.set a la.dropLast).set b (lb ++ [x]) := by
    unfold movedArrangement
    rw [getD_set_ne _ _ _ _ _ hab, ← hla, ← hlb, ← hx]
  obtain ⟨hba, hbne, hcond2⟩ := isValidMove_elim hv2
  rw [HanoiTower.state_mk] at hbne hcond2
  have hblen : b < st.length := by
    have hlt := lt_length_of_getD_ne_nil _ _ hbne
    simpa [movedArrangement] using hlt
  have hm1b : (movedArrangement st a b).getD b [] = lb ++ [x] := by
    rw [harr1]
    exact getD_set_self _ _ _ _ (by simpa using hblen)
  have hm1a : (movedArrangement st a b).getD a [] = la.dropLast := by
    rw [harr1, getD_set_ne _ _ _ _ _ (Ne.symm hab)]
    exact getD_set_self _ _ _ _ halen
  rw [movedArrangement_eq _ _ _ hba, hm1b, hm1a, List.dropLast_concat,
    List.getLast?_concat, Option.getD_some, hla_split, harr1, List.set_set,
    List.set_comm _ _ _ (Ne.symm hab), List.set_set, hla, hlb,
    set_getD_self st a [] halen, set_getD_self st b [] hblen]

theorem claim_C9_witness :
    (HanoiTower.mk 3 3 [[3, 2, 1], [], []]
        (some (HanoiTower.mk 3 3 [[3, 2], [1], []]
          (some (initTower 3 3)) (some (0, 1)))) (some (1, 0))).state =
      (initTower 3 3).state :=
  claim_C9_move_reversibility (initTower 3 3)
    (HanoiTower.mk 3 3 [[3, 2], [1], []] (some (initTower 3 3)) (some (0, 1)))
    (HanoiTower.mk 3 3 [[3, 2, 1], [], []]
      (some (HanoiTower.mk 3 3 [[3, 2], [1], []]
        (some (initTower 3 3)) (some (0, 1)))) (some (1, 0)))
    0 1 rfl rfl

/-- Claim C10: from a state whose pegs are all strictly decreasing, after
any successful move `(a, b)` the reverse move `(b, a)` is again valid, so
the precondition of move reversibility is always satisfiable. -/
theorem claim_C10_reverse_move_valid (t t1 : HanoiTower) (a b : Nat)
    (hlen : t.state.length = t.pegs) (hsorted : SortedPegs t.state)
    (h1 : t.moveDisk a b = .ok t1) :
    t1.isValidMove b a = true := by
  obtain ⟨ha, hb, hv1, rfl⟩ := moveDisk_ok_elim h1
  obtain ⟨hab, hane, hcond⟩ := isValidMove_elim hv1
  set st := t.state with hst
  set la := st.getD a [] with hla
  set lb := st.getD b [] with hlb
  have halen : a < st.length := lt_length_of_getD_ne_nil _ _ hane
  have hblen : b < st.length := by rw [hlen]; exact hb
  set x := la.getLast?.getD 0 with hx
  have hla_split : la.dropLast ++ [x] = la := by
    rw [hx, List.getLast?_eq_getLast la hane, Option.getD_some]
    exact List.dropLast_append_getLast hane
  have harr1 : movedArrangement st a b = (st.set a la.dropLast).set b (lb ++ [x]) := by
    unfold movedArrangement
    rw [getD_set_ne _ _ _ _ _ hab, ← hla, ← hlb, ← hx]
  have hm1b : (HanoiTower.mk t.pegs t.disks (movedArrangement st a b)
      (some t) (some (a, b))).state.getD b [] = lb ++ [x] := by
    rw [HanoiTower.state_mk, harr1]
    exact getD_set_self _ _ _ _ (by simpa using hblen)
  have hm1a : (HanoiTower.mk t.pegs t.disks (movedArrangement st a b)
      (some t) (some (a, b))).state.getD a [] = la.dropLast := by
    rw [HanoiTower.state_mk, harr1, getD_set_ne _ _ _ _ _ (Ne.symm hab)]
    exact getD_set_self _ _ _ _ halen
  refine isValidMove_intro (Ne.symm hab) (by rw [hm1b]; simp) ?_
  by_cases hdne : la.dropLast = []
  · left
    rw [hm1a, hdne]
  · right
    rw [hm1a, hm1b, List.getLast?_concat, Option.getD_some]
    have hsla : la.Pairwise (· > ·) := hsorted la (getD_mem _ _ _ halen)
    rw [← hla_split, List.pairwise_append] at hsla
    have hgt := hsla.2.2 (la.dropLast.getLast hdne) (List.getLast_mem hdne) x
      (List.mem_singleton_self x)
    rw [List.getLast?_eq_getLast _ hdne, Option.getD_some]
    exact hgt

theorem claim_C10_witness :
    (HanoiTower.mk 3 3 [[3, 2], [1], []]
      (some (initTower 3 3)) (some (0, 1))).isValidMove 1 0 = true :=
  claim_C10_reverse_move_valid (initTower 3 3)
    (HanoiTower.mk 3 3 [[3, 2], [1], []] (some (initTower 3 3)) (some (0, 1)))
    0 1 rfl (initialArrangement_sorted 3 3) rfl

/-- Restatement of `List.pairwise_flatMap` in the form used by
`get_possible_moves`. -/
lemma pairwise_flatMap_iff {α β : Type} {R : β → β → Prop} {l : List α}
    {fn : α → List β} :
    (l.flatMap fn).Pairwise R ↔
      (∀ a ∈ l, (fn a).Pairwise R) ∧
        l.Pairwise (fun a b => ∀ c ∈ fn a, ∀ d ∈ fn b, R c d) :=
  List.pairwise_flatMap

lemma mem_inner_moves {t : HanoiTower} {f : Nat} {p : Nat × Nat}
    (hp : p ∈ (List.range t.pegs).filterMap
      (fun g => if t.isValidMove f g then some (f, g) else none)) :
    p.1 = f := by
  rcases List.mem_filterMap.1 hp with ⟨g, _, hsome⟩
  split_ifs at hsome
  obtain rfl : (f, g) = p := Option.some.inj hsome
  rfl

/-- Claim C7: `get_possible_moves` returns exactly the ordered pairs of
in-range peg indices accepted by `_is_valid_move` (such pairs are always
distinct), in row-major order (source ascending outer, destination
ascending inner), with at most `pegs * (pegs - 1)` entries; being a pure
function of the state, the result is deterministic. -/
theorem claim_C7_get_possible_moves (t : HanoiTower) :
    (∀ f g : Nat, ((f, g) ∈ t.getPossibleMoves ↔
        f < t.pegs ∧ g < t.pegs ∧ t.isValidMove f g = true))
  ∧ List.Pairwise (fun p q : Nat × Nat => p.1 < q.1 ∨ (p.1 = q.1 ∧ p.2 < q.2))
      t.getPossibleMoves
  ∧ t.getPossibleMoves.length ≤ t.pegs * (t.pegs - 1) := by
  have hmem : ∀ f g : Nat, ((f, g) ∈ t.getPossibleMoves ↔
      f < t.pegs ∧ g < t.pegs ∧ t.isValidMove f g = true) := by
    intro f g
    unfold HanoiTower.getPossibleMoves
    simp only [List.mem_flatMap, List.mem_filterMap, List.mem_range]
    constructor
    · rintro ⟨a, ha, b, hb, hsome⟩
      split_ifs at hsome with hv
      obtain ⟨rfl, rfl⟩ := Prod.mk.injEq .. ▸ Option.some.inj hsome
      exact ⟨ha, hb, hv⟩
    · rintro ⟨hf, hg, hv⟩
      exact ⟨f, hf, g, hg, by rw [if_pos hv]⟩
  have hpair : List.Pairwise
      (fun p q : Nat × Nat => p.1 < q.1 ∨ (p.1 = q.1 ∧ p.2 < q.2))
      t.getPossibleMoves := by
    unfold HanoiTower.getPossibleMoves
    rw [pairwise_flatMap_iff]
    constructor
    · intro a _
      rw [List.pairwise_filterMap]
      refine (List.pairwise_lt_range t.pegs).imp ?_
      intro b c hbc p hp q hq
      split_ifs at hp hq
      · obtain rfl : (a, b) = p := Option.some.inj hp
        obtain rfl : (a, c) = q := Option.some.inj hq
        exact Or.inr ⟨rfl, hbc⟩
      · simp at hq
      · simp at hp
      · simp at hp
    · refine (List.pairwise_lt_range t.pegs).imp ?_
      intro a b hab p hp q hq
      rw [mem_inner_moves hp, mem_inner_moves hq]
      exact Or.inl hab
  refine ⟨hmem, hpair, ?_⟩
  have hnd : t.getPossibleMoves.Nodup := by
    refine hpair.imp ?_
    rintro ⟨a, b⟩ ⟨c, d⟩ h heq
    obtain ⟨rfl, rfl⟩ := Prod.mk.injEq .. ▸ heq
    rcases h with h | ⟨_, h⟩ <;> exact lt_irrefl _ h
  have hsub : t.getPossibleMoves.toFinset ⊆ (Finset.range t.pegs).offDiag := by
    intro p hp
    obtain ⟨f, g⟩ := p
    rw [List.mem_toFinset] at hp
    obtain ⟨h1, h2, hv⟩ := (hmem f g).1 hp
    rw [Finset.mem_offDiag]
    exact ⟨Finset.mem_range.2 h1, Finset.mem_range.2 h2, (isValidMove_elim hv).1⟩
  calc t.getPossibleMoves.length
      = t.getPossibleMoves.toFinset.card := (List.toFinset_card_of_nodup hnd).symm
    _ ≤ ((Finset.range t.pegs).offDiag).card := Finset.card_le_card hsub
    _ = t.pegs * t.pegs - t.pegs := by
        rw [Finset.offDiag_card, Finset.card_range]
    _ = t.pegs * (t.pegs - 1) := (Nat.mul_sub_one t.pegs t.pegs).symm

/-- Counterexample to claim C6: the constructor accepts an explicit
arrangement with only one peg list although `pegs = 3` (and, incidentally,
with the disk multiset `{1}` untouched on a single peg): the `state`
setter validates only that the value is a list of lists of integers, so
no `InvalidConfiguration` error is raised for a malformed shape. -/
theorem claim_C6_counterexample :
    mkHanoiTower 3 1 (some [[1]]) none none =
      .ok (HanoiTower.mk 3 1 [[1]] none none)
    ∧ ([[1]] : List (List Nat)).length ≠ 3 :=
  ⟨rfl, by decide⟩

/-- Claim C6 as amended: constructing a state from an explicit
arrangement fails with `InvalidConfiguration` exactly when `pegs < 3` or
`disks < 1`; the arrangement itself is only type-checked (a list of lists
of integers, guaranteed here by the type), so any such arrangement is
accepted regardless of its number of sequences or its disk multiset. -/
theorem claim_C6_amended_constructor (pegs disks : Nat) (st : List (List Nat))
    (pa : Option HanoiTower) (la : Option (Nat × Nat)) :
    (mkHanoiTower pegs disks (some st) pa la = .error .invalidConfiguration ↔
      (pegs < 3 ∨ disks < 1))
  ∧ (3 ≤ pegs → 1 ≤ disks →
      mkHanoiTower pegs disks (some st) pa la = .ok (.mk pegs disks st pa la)) := by
  unfold mkHanoiTower
  split_ifs with h1 h2 <;> simp <;> omega

theorem claim_C6_witness :
    ((mkHanoiTower 3 2 (some [[1], [1], [1]]) none none =
        .error .invalidConfiguration ↔ (3 < 3 ∨ 2 < 1))
  ∧ (3 ≤ 3 → 1 ≤ 2 →
      mkHanoiTower 3 2 (some [[1], [1], [1]]) none none =
        .ok (.mk 3 2 [[1], [1], [1]] none none))) :=
  claim_C6_amended_constructor 3 2 [[1], [1], [1]] none none
